import Mathlib

/-!
Verification development for the `synapsed` repository slice
(`src/examples/simple-mcp-server/`: `demo.py`, `test_client.py`,
`query_db.py`, `visualize_intents.py`).

The scripts move data through Python's `json.dumps` / `json.loads`, a
SQLite database (three tables created in `demo.py`), and an append-only
log file.  This file gives a shallow embedding of those scripts:

* a `Json` value type together with a serializer `dumps` that mirrors
  `json.dumps` with its default separators (`", "` and `": "`), and a
  fuel-based recursive-descent parser `loads` that mirrors `json.loads`
  on the fragment the scripts exercise (strings without escape
  sequences; numbers without exponents, modelled by their decimal digit
  representation as emitted by `json.dumps`);
* the row types of the three SQLite tables with the column defaults of
  the `CREATE TABLE` statements in `demo.py`;
* the three loops of `demo.py` (agent spawning, verification, event
  logging) as pure functions over explicit input lists; the external
  value sources (`uuid.uuid4()`, `datetime.now()`) are passed in as
  parameters;
* the cell-formatting logic of `query_db.py`'s `display_table` and the
  dashboard computations of `visualize_intents.py`.
-/

namespace Synapsed

/-- JSON values as they flow through `json.dumps` / `json.loads` in the
scripts.  Numbers are modelled by their decimal representation (a sign,
the integer-part digits and the fraction digits), which is exactly the
surface form `json.dumps` emits for the ints and floats in the demo's
evidence payloads.  Objects are association lists in insertion order,
matching Python dicts (insertion-ordered) and `json.dumps` output
order. -/
inductive Json where
  | null : Json
  | bool (b : Bool) : Json
  | num (neg : Bool) (ip : List Nat) (frac : List Nat) : Json
  | str (s : String) : Json
  | arr (xs : List Json) : Json
  | obj (kvs : List (String × Json)) : Json

/-- Decimal digit to its character, as rendered in a JSON number. -/
def digitChar (d : Nat) : Char :=
  match d with
  | 0 => '0' | 1 => '1' | 2 => '2' | 3 => '3' | 4 => '4'
  | 5 => '5' | 6 => '6' | 7 => '7' | 8 => '8' | _ => '9'

mutual

/-- Serializer mirroring `json.dumps` with the default separators:
item separator `", "`, key separator `": "`, no added whitespace
elsewhere, strings emitted verbatim between double quotes (the payloads
in the scripts contain no characters that `json.dumps` escapes). -/
def serJ : Json → List Char
  | .null => "null".data
  | .bool true => "true".data
  | .bool false => "false".data
  | .num neg ip frac =>
      (if neg then ['-'] else []) ++ ip.map digitChar ++
        (if frac.isEmpty then [] else '.' :: frac.map digitChar)
  | .str s => '"' :: s.data ++ ['"']
  | .arr xs => '[' :: serItems xs ++ [']']
  | .obj kvs => '\x7b' :: serMembers kvs ++ ['\x7d']

/-- Body of a serialized array: the items joined by `", "`. -/
def serItems : List Json → List Char
  | [] => []
  | [x] => serJ x
  | x :: y :: xs => serJ x ++ ',' :: ' ' :: serItems (y :: xs)

/-- Body of a serialized object: `"key": value` pairs joined by `", "`. -/
def serMembers : List (String × Json) → List Char
  | [] => []
  | [(k, v)] => '"' :: k.data ++ '"' :: ':' :: ' ' :: serJ v
  | (k, v) :: m :: kvs =>
      '"' :: k.data ++ '"' :: ':' :: ' ' :: serJ v ++ ',' :: ' ' :: serMembers (m :: kvs)

end

/-- `json.dumps` on the modelled fragment. -/
def dumps (v : Json) : String := String.mk (serJ v)

/-- A character that a JSON string in the modelled fragment may contain:
not a double quote, not a backslash, not a control character (those
would be escaped by `json.dumps`, and no payload in the scripts contains
one). -/
def strCharOk (c : Char) : Bool :=
  c ≠ '"' && c ≠ '\\' && decide (32 ≤ c.toNat)

mutual

/-- Well-formedness of a modelled JSON value: string contents need no
escaping, number digit lists are genuine decimal representations
(integer part nonempty, all digits below ten, no leading zero except
for the single digit `0`, as the JSON grammar requires and `json.dumps`
emits). -/
def wfJ : Json → Bool
  | .null => true
  | .bool _ => true
  | .num _ ip frac =>
      !ip.isEmpty && ip.all (fun d => decide (d < 10)) &&
        (decide (ip.length = 1) || !(ip.head? == some 0)) &&
        frac.all (fun d => decide (d < 10))
  | .str s => s.data.all strCharOk
  | .arr xs => wfItems xs
  | .obj kvs => wfMembers kvs

/-- Well-formedness of array items. -/
def wfItems : List Json → Bool
  | [] => true
  | x :: xs => wfJ x && wfItems xs

/-- Well-formedness of object members (keys need no escaping, values
well-formed). -/
def wfMembers : List (String × Json) → Bool
  | [] => true
  | (k, v) :: kvs => k.data.all strCharOk && wfJ v && wfMembers kvs

end

mutual

/-- Size of a JSON value, used as a fuel bound for the parser. -/
def jsize : Json → Nat
  | .null => 1
  | .bool _ => 1
  | .num _ _ _ => 1
  | .str _ => 1
  | .arr xs => 1 + isize xs
  | .obj kvs => 1 + msize kvs

/-- Size of array items. -/
def isize : List Json → Nat
  | [] => 1
  | x :: xs => 1 + jsize x + isize xs

/-- Size of object members. -/
def msize : List (String × Json) → Nat
  | [] => 1
  | (_, v) :: kvs => 1 + jsize v + msize kvs

end

/-- Whitespace accepted by `json.loads` between tokens. -/
def isWsChar (c : Char) : Bool := c = ' ' || c = '\t' || c = '\n' || c = '\r'

/-- Drop leading whitespace, as `json.loads` does between tokens. -/
def skipWs : List Char → List Char
  | [] => []
  | c :: cs => if isWsChar c then skipWs cs else c :: cs

/-- Read the contents of a JSON string up to the closing quote.  On the
modelled escape-free fragment this is what `json.loads` does; a
backslash or control character (which `json.loads` would treat as an
escape sequence or reject) makes the parse fail. -/
def parseStringChars : List Char → Option (List Char × List Char)
  | [] => none
  | c :: cs =>
      if c = '"' then some ([], cs)
      else if strCharOk c then
        match parseStringChars cs with
        | some (s, rest) => some (c :: s, rest)
        | none => none
      else none

/-- Read a maximal run of decimal digits, returning their values. -/
def takeDigits : List Char → List Nat × List Char
  | [] => ([], [])
  | c :: cs =>
      if c.isDigit then
        let p := takeDigits cs
        ((c.toNat - 48) :: p.1, p.2)
      else ([], c :: cs)

/-- Parse the digits of a JSON number after an optional leading minus
sign: integer part (no leading zero, as the JSON grammar `json.loads`
implements requires), then an optional fraction introduced by a dot. -/
def parseNum (neg : Bool) (cs : List Char) : Option (Json × List Char) :=
  match takeDigits cs with
  | ([], _) => none
  | (d :: ds, rest) =>
      if d = 0 && !ds.isEmpty then none
      else
        match rest with
        | '.' :: rest2 =>
            (match takeDigits rest2 with
             | ([], _) => none
             | (f :: fs, rest3) => some (.num neg (d :: ds) (f :: fs), rest3))
        | _ => some (.num neg (d :: ds) [], rest)

mutual

/-- Recursive-descent value parser mirroring `json.loads` on the
modelled fragment (no string escapes, no number exponents).  The `Nat`
fuel only bounds recursion depth; `loads` below supplies enough fuel
for any input of the given length. -/
def parseVal : Nat → List Char → Option (Json × List Char)
  | 0, _ => none
  | f + 1, cs =>
      match cs with
      | 'n' :: 'u' :: 'l' :: 'l' :: rest => some (.null, rest)
      | 't' :: 'r' :: 'u' :: 'e' :: rest => some (.bool true, rest)
      | 'f' :: 'a' :: 'l' :: 's' :: 'e' :: rest => some (.bool false, rest)
      | '"' :: rest =>
          (match parseStringChars rest with
           | some (s, rest2) => some (.str (String.mk s), rest2)
           | none => none)
      | '[' :: rest =>
          (match skipWs rest with
           | ']' :: rest2 => some (.arr [], rest2)
           | rest2 =>
               match parseItems f rest2 with
               | some (xs, rest3) => some (.arr xs, rest3)
               | none => none)
      | '\x7b' :: rest =>
          (match skipWs rest with
           | '\x7d' :: rest2 => some (.obj [], rest2)
           | rest2 =>
               match parseMembers f rest2 with
               | some (kvs, rest3) => some (.obj kvs, rest3)
               | none => none)
      | '-' :: rest => parseNum true rest
      | c :: rest => if c.isDigit then parseNum false (c :: rest) else none
      | [] => none

/-- Parse the items of a nonempty array body, consuming the closing
bracket. -/
def parseItems : Nat → List Char → Option (List Json × List Char)
  | 0, _ => none
  | f + 1, cs =>
      match parseVal f cs with
      | none => none
      | some (v, rest) =>
          match skipWs rest with
          | ',' :: rest2 =>
              (match parseItems f (skipWs rest2) with
               | some (vs, rest3) => some (v :: vs, rest3)
               | none => none)
          | ']' :: rest2 => some ([v], rest2)
          | _ => none

/-- Parse the members of a nonempty object body, consuming the closing
brace. -/
def parseMembers : Nat → List Char → Option (List (String × Json) × List Char)
  | 0, _ => none
  | f + 1, cs =>
      match cs with
      | '"' :: cs1 =>
          (match parseStringChars cs1 with
           | none => none
           | some (k, cs2) =>
               match skipWs cs2 with
               | ':' :: cs3 =>
                   (match parseVal f (skipWs cs3) with
                    | none => none
                    | some (v, cs4) =>
                        match skipWs cs4 with
                        | ',' :: cs5 =>
                            (match parseMembers f (skipWs cs5) with
                             | some (kvs, cs6) => some ((String.mk k, v) :: kvs, cs6)
                             | none => none)
                        | '\x7d' :: cs5 => some ([(String.mk k, v)], cs5)
                        | _ => none)
               | _ => none)
      | _ => none

end

/-- `json.loads` on the modelled fragment: parse one value surrounded by
optional whitespace; anything left over is an error. -/
def loads (s : String) : Option Json :=
  match parseVal (2 * s.data.length + 2) (skipWs s.data) with
  | some (v, rest) => if (skipWs rest).isEmpty then some v else none
  | none => none

/-- A continuation after a serialized value on which number parsing is
unambiguous: it does not begin with a digit or a dot.  Every context in
which a value appears inside a serialized document (before `","`, `"]"`,
`"}"` or the end of input) satisfies this. -/
def restOkB : List Char → Bool
  | [] => true
  | c :: _ => !c.isDigit && !(c = '.')

/-- The characters a serialized JSON value can start with. -/
def jsonHeadChars : List Char :=
  ['n', 't', 'f', '"', '[', '\x7b', '-',
   '0', '1', '2', '3', '4', '5', '6', '7', '8', '9']

/-- The continuation does not begin with a digit, so a maximal digit
run stops exactly there. -/
def noDigitHead (rest : List Char) : Prop :=
  ∀ c cs, rest = c :: cs → c.isDigit = false

/-- First evidence payload of `demo.py` (the performance monitor's). -/
def evidence1 : Json := .obj
  [("metrics_collected", .bool true),
   ("cpu_usage", .str "45%"),
   ("memory_usage", .str "62%"),
   ("disk_io", .str "moderate")]

/-- Second evidence payload of `demo.py` (the code analyzer's). -/
def evidence2 : Json := .obj
  [("analysis_complete", .bool true),
   ("hot_paths_identified", .num false [3] []),
   ("optimization_opportunities", .num false [7] []),
   ("estimated_improvement", .str "35%")]

/-- Third evidence payload of `demo.py` (the verification specialist's). -/
def evidence3 : Json := .obj
  [("report_generated", .bool true),
   ("recommendations", .num false [5] []),
   ("validation_passed", .bool true),
   ("confidence_score", .num false [0] [9, 2])]

/-- Row of the `intents` table, with the column set of the CREATE TABLE
statement in `demo.py` (id, goal, description, status, created_at,
verified BOOLEAN DEFAULT 0, verification_count INTEGER DEFAULT 0). -/
structure IntentRow where
  id : String
  goal : String
  description : String
  status : String
  created_at : String
  verified : Bool
  verification_count : Nat

/-- The INSERT INTO intents of `demo.py`: only (id, goal, description,
status, created_at) are supplied, so `verified` and
`verification_count` take their schema defaults 0 and 0. -/
def insertIntent (id goal description status created_at : String) : IntentRow :=
  { id, goal, description, status, created_at,
    verified := false, verification_count := 0 }

/-- The UPDATE of `demo.py` (lines 200-204): `SET status = 'verified',
verified = 1, verification_count = 3 WHERE id = ?`.  The values are
literal constants in the SQL text. -/
def updateIntentVerified (intentId : String) (r : IntentRow) : IntentRow :=
  if r.id = intentId then
    { r with status := "verified", verified := true, verification_count := 3 }
  else r

def demoIntentGoal : String := "Analyze and optimize system performance"

def demoIntentDescription : String :=
  "Comprehensive system analysis to identify bottlenecks"

/-- The intent row `demo.py` inserts in step 1. -/
def demoIntent (id t0 : String) : IntentRow :=
  insertIntent id demoIntentGoal demoIntentDescription "declared" t0

/-- The demo intent row at each committed database state: `conn.commit()`
runs at line 96 (after the intent INSERT), line 144 (after the agent
INSERTs, intent unchanged) and line 205 (after the verification INSERTs
and the UPDATE). -/
def demoIntentCommits (id t0 : String) : List IntentRow :=
  [demoIntent id t0, demoIntent id t0, updateIntentVerified id (demoIntent id t0)]

/-- The claimed invariant at configured verification threshold `t`: at
every committed state, the verified flag equals (count ≥ t). -/
def intentThresholdInvariant (t : Nat) (id t0 : String) : Prop :=
  ∀ r ∈ demoIntentCommits id t0, r.verified = decide (t ≤ r.verification_count)

/-- Row of the `agents` table (id, name, capabilities, trust_score REAL
DEFAULT 0.5, created_at). -/
structure AgentRow where
  id : String
  name : String
  capabilities : String
  trust_score : ℚ
  created_at : String

/-- Row of the `verifications` table (id, intent_id, agent_id, evidence,
timestamp). -/
structure VerificationRow where
  id : String
  intent_id : String
  agent_id : String
  evidence : String
  timestamp : String

/-- An event record as written to the observability log: {timestamp,
event_type, subject, data}. -/
structure Event where
  timestamp : String
  event_type : String
  subject : String
  data : Json

/-- An agent as listed in `demo.py` (name plus capability tags). -/
structure AgentSpec where
  name : String
  capabilities : List String

/-- The JSON object for an agent dict, as logged in the agent.spawned
event's data field. -/
def specJson (a : AgentSpec) : Json :=
  .obj [("name", .str a.name), ("capabilities", .arr (a.capabilities.map .str))]

/-- Map with the element index, starting at `i`; the embedding of a
Python `for` loop that builds one output per iteration. -/
def mapIdxFrom (f : Nat → α → β) : Nat → List α → List β
  | _, [] => []
  | i, a :: as => f i a :: mapIdxFrom f (i + 1) as

/-- The agent INSERTs of `demo.py`'s spawn loop (lines 121-142): one row
per (spec, fresh id) pair, capabilities stored as `json.dumps` of the
tag list, trust_score omitted from the INSERT so the schema default 0.5
applies.  `ids` models the `uuid.uuid4()` outputs, `now` the
`datetime.now().isoformat()` calls. -/
def spawnRows (specs : List AgentSpec) (ids : List String) (now : Nat → String) :
    List AgentRow :=
  mapIdxFrom (fun i p =>
    { id := p.2, name := p.1.name,
      capabilities := dumps (.arr (p.1.capabilities.map .str)),
      trust_score := 1 / 2, created_at := now i }) 0 (specs.zip ids)

/-- The agent.spawned events appended by the same loop, in loop order. -/
def spawnEvents (specs : List AgentSpec) (ids : List String) (now : Nat → String) :
    List Event :=
  mapIdxFrom (fun i p =>
    { timestamp := now i, event_type := "agent.spawned", subject := p.2,
      data := specJson p.1 }) 0 (specs.zip ids)

/-- The verification INSERTs of `demo.py`'s verify loop (lines 170-177):
one row per (agent_id, evidence) pair from `zip(agent_ids,
verification_evidence)`; evidence stored as `json.dumps(evidence)`,
unmodified.  `vids` models the per-iteration `uuid.uuid4()` outputs. -/
def verifyRows (intentId : String) (pairs : List (String × Json))
    (vids now : Nat → String) : List VerificationRow :=
  mapIdxFrom (fun i p =>
    { id := vids i, intent_id := intentId, agent_id := p.1,
      evidence := dumps p.2, timestamp := now i }) 0 pairs

/-- The intent.verified events appended by the same loop (lines 184-195):
subject is the intent id, data is {agent_id, verification_id, evidence}. -/
def verifyEvents (intentId : String) (pairs : List (String × Json))
    (vids now : Nat → String) : List Event :=
  mapIdxFrom (fun i p =>
    { timestamp := now i, event_type := "intent.verified", subject := intentId,
      data := .obj [("agent_id", .str p.1), ("verification_id", .str (vids i)),
        ("evidence", p.2)] }) 0 pairs

/-- The keys of a JSON object, in order. -/
def jsonKeys : Json → List String
  | .obj kvs => kvs.map Prod.fst
  | _ => []

/-- The three agents of `demo.py`. -/
def demoAgents : List AgentSpec :=
  [⟨"Performance Monitor", ["monitoring", "metrics", "telemetry"]⟩,
   ⟨"Code Analyzer", ["analysis", "optimization", "profiling"]⟩,
   ⟨"Verification Specialist", ["verification", "reporting", "validation"]⟩]

/-- The three evidence payloads of `demo.py`, in loop order. -/
def demoEvidence : List Json := [evidence1, evidence2, evidence3]

/-- The intent.declared event of `demo.py` step 1; its data payload is
the intent_params dict. -/
def declaredEvent (intentId t0 : String) : Event :=
  { timestamp := t0, event_type := "intent.declared", subject := intentId,
    data := .obj [("goal", .str demoIntentGoal),
      ("description", .str demoIntentDescription)] }

/-- All events one demo session appends to the log, in append order:
the intent.declared event, then one agent.spawned per agent in loop
order, then one intent.verified per verification in loop order.  `aids`
are the generated agent ids (the demo zips its accumulated `agent_ids`
list with the evidence list for the verify loop). -/
def demoSessionEvents (intentId : String) (aids : List String)
    (vids nowA nowV : Nat → String) (t0 : String) : List Event :=
  declaredEvent intentId t0 :: (spawnEvents demoAgents aids nowA ++
    verifyEvents intentId (aids.zip demoEvidence) vids nowV)

/-- The JSON object serialized for an event log line. -/
def eventJson (e : Event) : Json :=
  .obj [("timestamp", .str e.timestamp), ("event_type", .str e.event_type),
    ("subject", .str e.subject), ("data", e.data)]

/-- The three session-header chunks `demo.py` writes before any event
(lines 76-79), each via `open(..., "a")`. -/
def headerLines (t0 : String) : List String :=
  ["\n\n" ++ String.mk (List.replicate 60 '=') ++ "\n",
   "NEW DEMONSTRATION SESSION: " ++ t0 ++ "\n",
   String.mk (List.replicate 60 '=') ++ "\n"]

/-- The log file content after a demo session: every write in `demo.py`
opens the file in mode "a" (append), so the run only ever appends to
the prior content `initLog`. -/
def demoLog (initLog : List String) (intentId : String) (aids : List String)
    (vids nowA nowV : Nat → String) (t0 : String) : List String :=
  initLog ++ (headerLines t0 ++
    (demoSessionEvents intentId aids vids nowA nowV t0).map
      (fun e => dumps (eventJson e) ++ "\n"))

/-- Rank of an event type in the demo session's causal order. -/
def eventRank (e : Event) : Nat :=
  if e.event_type = "intent.declared" then 0
  else if e.event_type = "agent.spawned" then 1
  else 2

/-- In-memory intent state of the reconstructed server core. -/
structure EngIntent where
  verification_proofs : List String
  verification_count : Nat
  verified : Bool

/-- A fresh intent as created by `declare` (spec section 4.3): empty
proof list, verification_count 0, not verified. -/
def freshEngIntent : EngIntent := ⟨[], 0, false⟩

/-- Modelled from the spec: the server's Intent Registry
`record_verification` is not part of the repository slice (only the
client scripts are present).  Spec section 4.3: it "appends proof id,
increments count, and if count reaches the threshold, transitions
status to `verified` exactly once (idempotent past the threshold)", and
section 4.5 requires these increments to be atomic under concurrency,
so a concurrent execution is an interleaving of these atomic steps.
The returned Bool reports whether this call fired the transition. -/
def record_verification (threshold : Nat) (s : EngIntent) (proofId : String) :
    EngIntent × Bool :=
  let c := s.verification_count + 1
  ({ verification_proofs := s.verification_proofs ++ [proofId],
     verification_count := c,
     verified := s.verified || decide (threshold ≤ c) },
   decide (c = threshold))

/-- Run a sequence of atomic `record_verification` steps (one per
submitted proof id, in commit order) and count how many of them fired
the verified transition. -/
def runVerifications (threshold : Nat) (s : EngIntent) (pids : List String) :
    EngIntent × Nat :=
  match pids with
  | [] => (s, 0)
  | p :: ps =>
      let r := record_verification threshold s p
      let rest := runVerifications threshold r.1 ps
      (rest.1, (if r.2 then 1 else 0) + rest.2)

/-- Decimal digits of a natural number, most significant first; the
digit sequence `json.dumps` emits for a Python int. -/
def natDigits (n : Nat) : List Nat :=
  if h : n < 10 then [n] else natDigits (n / 10) ++ [n % 10]
decreasing_by
  exact Nat.div_lt_self (by omega) (by omega)

/-- The JSON-RPC request object built by `send_request` in
`test_client.py` and `demo.py`: {"jsonrpc": "2.0", "id": int(time.time()),
"method": method, "params": params or {}} (Python dicts preserve this
insertion order, and `json.dumps` serializes in it).  A missing/None
params is replaced by the empty object, which is also what `params or
{}` yields for an empty dict. -/
def sendRequestJson (reqId : Nat) (method : String) (params : Option Json) : Json :=
  .obj [("jsonrpc", .str "2.0"), ("id", .num false (natDigits reqId) []),
    ("method", .str method), ("params", params.getD (.obj []))]

/-- The bytes `send_request` writes to the socket:
`json.dumps(request) + "\n"`. -/
def sendRequestMessage (reqId : Nat) (method : String) (params : Option Json) : String :=
  dumps (sendRequestJson reqId method params) ++ "\n"

/-- The connection target of `send_request`:
`s.connect(("localhost", 3000))`. -/
def sendRequestTarget : String × Nat := ("localhost", 3000)

/-- A non-NULL SQLite cell value as fetched by the display scripts. -/
inductive SqlVal where
  | int (i : Int)
  | real (q : ℚ)
  | text (s : String)

/-- Python `str(val)` for a cell value: the identity on strings (the
claim only depends on that case; the numeric renderings stand in for
Python's and only their lengths occur elsewhere). -/
def pyStr : SqlVal → String
  | .int i => toString i
  | .real q => toString q
  | .text s => s

/-- `str(val) if val is not None else "NULL"`, the string whose length
enters the width computation of `display_table`. -/
def cellText (v : Option SqlVal) : String :=
  match v with
  | none => "NULL"
  | some x => pyStr x

/-- One row's pass of the width loop of `display_table` (lines 25-27):
`widths[i] = max(widths[i], len(str(val) if val is not None else "NULL"))`. -/
def widthStep (ws : List Nat) (row : List (Option SqlVal)) : List Nat :=
  List.zipWith (fun w v => max w (cellText v).length) ws row

/-- The column widths of `display_table`: start from the header lengths
and fold the width loop over all rows. -/
def tableWidths (columns : List String) (rows : List (List (Option SqlVal))) :
    List Nat :=
  rows.foldl widthStep (columns.map String.length)

/-- The cell formatting of `display_table` (lines 37-44): None prints as
"NULL"; a string starting with a brace or bracket is truncated to the
column width with "..." when longer than the width; everything else is
`str(val)`. -/
def formatVal (w : Nat) (v : Option SqlVal) : String :=
  match v with
  | none => "NULL"
  | some (.text s) =>
      if s.startsWith "\x7b" || s.startsWith "[" then
        if w < s.length then s.take (w - 3) ++ "..." else s
      else s
  | some x => pyStr x

/-- The success-rate expression of `visualize_intents.py` line 54:
`verified_count/intent_count*100 if intent_count > 0 else 0`. -/
def successRate (verified_count intent_count : Nat) : ℚ :=
  if 0 < intent_count then (verified_count : ℚ) / (intent_count : ℚ) * 100 else 0

/-- The average-time expression of `visualize_intents.py` line 179:
`duration/perf[2] if perf[2] > 0 else 0`. -/
def avgTimePerAgent (duration : ℚ) (verify_count : Nat) : ℚ :=
  if 0 < verify_count then duration / (verify_count : ℚ) else 0

/-- Python truthiness of an optional string (None and "" are falsy). -/
def truthyStr : Option String → Bool
  | none => false
  | some s => !s.isEmpty

/-- The guard of the performance section, `visualize_intents.py` line
173: `if perf and perf[0] and perf[1]` where perf[0]/perf[1] are the
MIN/MAX verification timestamps (NULL when there are no rows). -/
def perfGuard (minT maxT : Option String) : Bool :=
  truthyStr minT && truthyStr maxT

/-- Python `int()` on a rational: truncation toward zero. -/
def pyInt (q : ℚ) : Int := if q < 0 then ⌈q⌉ else ⌊q⌋

/-- The trust bar of `visualize_intents.py` line 88:
`"█" * int(trust*10) + "░" * (10 - int(trust*10))` (Python renders a
string repeated a negative number of times as empty, which `Int.toNat`
mirrors). -/
def trustBar (t : ℚ) : List Char :=
  List.replicate (pyInt (t * 10)).toNat '█' ++
    List.replicate (10 - pyInt (t * 10)).toNat '░'

theorem jsize_pos (v : Json) : 1 ≤ jsize v := by
  cases v <;> simp [jsize]

theorem isize_pos (xs : List Json) : 1 ≤ isize xs := by
  cases xs with
  | nil => simp [isize]
  | cons x xs => simp only [isize]; omega

theorem msize_pos (kvs : List (String × Json)) : 1 ≤ msize kvs := by
  cases kvs with
  | nil => simp [msize]
  | cons kv kvs => obtain ⟨k, v⟩ := kv; simp only [msize]; omega

theorem digitChar_mem_head (d : Nat) : digitChar d ∈ jsonHeadChars := by
  unfold digitChar; split <;> decide

theorem digitChar_isDigit (d : Nat) : (digitChar d).isDigit = true := by
  unfold digitChar; split <;> decide

theorem digitChar_toNat (d : Nat) (hd : d < 10) : (digitChar d).toNat - 48 = d := by
  interval_cases d <;> decide

theorem mk_data (s : String) : String.mk s.data = s := rfl

theorem serJ_head (v : Json) (hv : wfJ v = true) :
    ∃ c t, serJ v = c :: t ∧ c ∈ jsonHeadChars := by
  cases v with
  | null => exact ⟨'n', _, rfl, by decide⟩
  | bool b =>
      cases b with
      | false => exact ⟨'f', _, rfl, by decide⟩
      | true => exact ⟨'t', _, rfl, by decide⟩
  | num neg ip frac =>
      cases neg with
      | true => exact ⟨'-', _, rfl, by decide⟩
      | false =>
          simp only [wfJ, Bool.and_eq_true] at hv
          obtain ⟨⟨⟨h1, _⟩, _⟩, _⟩ := hv
          cases ip with
          | nil => simp at h1
          | cons d ds =>
              refine ⟨digitChar d, ds.map digitChar ++
                (if frac.isEmpty then [] else '.' :: frac.map digitChar), ?_,
                digitChar_mem_head d⟩
              simp [serJ]
  | str s => exact ⟨'"', _, rfl, by decide⟩
  | arr xs => exact ⟨'[', _, rfl, by decide⟩
  | obj kvs => exact ⟨'\x7b', _, rfl, by decide⟩

theorem skipWs_cons (c : Char) (l : List Char) (hc : isWsChar c = false) :
    skipWs (c :: l) = c :: l := by
  simp [skipWs, hc]

theorem skipWs_serJ (v : Json) (hv : wfJ v = true) (r : List Char) :
    skipWs (serJ v ++ r) = serJ v ++ r := by
  obtain ⟨c, t, he, hc⟩ := serJ_head v hv
  rw [he, List.cons_append]
  refine skipWs_cons c (t ++ r) ?_
  fin_cases hc <;> decide

theorem parseStringChars_app (l : List Char) (hl : l.all strCharOk = true)
    (rest : List Char) :
    parseStringChars (l ++ '"' :: rest) = some (l, rest) := by
  induction l with
  | nil => rfl
  | cons c cs ih =>
      simp only [List.all_cons, Bool.and_eq_true] at hl
      have hne : (c = '"') = False := by
        have := hl.1
        simp only [strCharOk, Bool.and_eq_true, decide_eq_true_eq] at this
        simp [this.1.1]
      simp [parseStringChars, hne, hl.1, ih hl.2]

theorem restOkB_noDigitHead (rest : List Char) (h : restOkB rest = true) :
    noDigitHead rest := by
  intro c cs hc
  subst hc
  simp only [restOkB, Bool.and_eq_true, Bool.not_eq_true'] at h
  exact h.1

theorem takeDigits_app (ds : List Nat) (hds : ∀ d ∈ ds, d < 10)
    (rest : List Char) (hrest : noDigitHead rest) :
    takeDigits (ds.map digitChar ++ rest) = (ds, rest) := by
  induction ds with
  | nil =>
      cases rest with
      | nil => rfl
      | cons c cs => simp [takeDigits, hrest c cs rfl]
  | cons d ds ih =>
      have hd : d < 10 := hds d (by simp)
      simp only [List.map_cons, List.cons_append]
      rw [takeDigits]
      simp [digitChar_isDigit d, ih (fun x hx => hds x (by simp [hx])),
        digitChar_toNat d hd]

theorem parseNum_ser (neg : Bool) (ip frac : List Nat)
    (h : wfJ (.num neg ip frac) = true) (rest : List Char)
    (hrest : restOkB rest = true) :
    parseNum neg (ip.map digitChar ++
      (if frac.isEmpty then [] else '.' :: frac.map digitChar) ++ rest) =
      some (.num neg ip frac, rest) := by
  simp only [wfJ, Bool.and_eq_true] at h
  obtain ⟨⟨⟨h1, h2⟩, h3⟩, h4⟩ := h
  cases ip with
  | nil => simp at h1
  | cons d ds =>
      have hds : ∀ x ∈ d :: ds, x < 10 := by
        intro x hx
        have := List.all_eq_true.mp h2 x hx
        simpa using this
      have hlz : (decide (d = 0) && !ds.isEmpty) = false := by
        cases ds with
        | nil => simp
        | cons e es =>
            simp at h3
            simp [h3]
      cases frac with
      | nil =>
          unfold parseNum
          try simp only [List.isEmpty_nil, eq_self_iff_true, if_true,
            List.append_assoc, List.nil_append, List.append_nil]
          rw [takeDigits_app _ hds rest (restOkB_noDigitHead rest hrest)]
          simp only [hlz, Bool.false_eq_true, if_false]
          split
          · simp [restOkB] at hrest
          · rfl
      | cons f0 fs =>
          have hfs : ∀ x ∈ f0 :: fs, x < 10 := by
            intro x hx
            have := List.all_eq_true.mp h4 x hx
            simpa using this
          have hdot : noDigitHead ('.' :: ((f0 :: fs).map digitChar ++ rest)) := by
            intro c cs hcc
            injection hcc with hc _
            subst hc
            decide
          unfold parseNum
          simp only [List.isEmpty_cons, Bool.false_eq_true, if_false,
            List.append_assoc, List.cons_append]
          rw [takeDigits_app _ hds _ hdot]
          simp only [hlz, Bool.false_eq_true, if_false]
          rw [takeDigits_app _ hfs rest (restOkB_noDigitHead rest hrest)]

theorem parseVal_null (f : Nat) (rest : List Char) :
    parseVal (f + 1) ('n' :: 'u' :: 'l' :: 'l' :: rest) = some (.null, rest) := rfl

theorem parseVal_true (f : Nat) (rest : List Char) :
    parseVal (f + 1) ('t' :: 'r' :: 'u' :: 'e' :: rest) = some (.bool true, rest) := rfl

theorem parseVal_false (f : Nat) (rest : List Char) :
    parseVal (f + 1) ('f' :: 'a' :: 'l' :: 's' :: 'e' :: rest) = some (.bool false, rest) := rfl

theorem parseVal_str (f : Nat) (rest : List Char) :
    parseVal (f + 1) ('"' :: rest) =
      (match parseStringChars rest with
       | some (s, rest2) => some (.str (String.mk s), rest2)
       | none => none) := rfl

theorem parseVal_arr (f : Nat) (rest : List Char) :
    parseVal (f + 1) ('[' :: rest) =
      (match skipWs rest with
       | ']' :: rest2 => some (.arr [], rest2)
       | rest2 =>
           match parseItems f rest2 with
           | some (xs, rest3) => some (.arr xs, rest3)
           | none => none) := rfl

theorem parseVal_obj (f : Nat) (rest : List Char) :
    parseVal (f + 1) ('\x7b' :: rest) =
      (match skipWs rest with
       | '\x7d' :: rest2 => some (.obj [], rest2)
       | rest2 =>
           match parseMembers f rest2 with
           | some (kvs, rest3) => some (.obj kvs, rest3)
           | none => none) := rfl

theorem parseVal_neg (f : Nat) (rest : List Char) :
    parseVal (f + 1) ('-' :: rest) = parseNum true rest := rfl

theorem parseVal_digitChar (f d : Nat) (cs : List Char) :
    parseVal (f + 1) (digitChar d :: cs) = parseNum false (digitChar d :: cs) := by
  unfold digitChar; split <;> rfl

theorem parseItems_succ (f : Nat) (cs : List Char) :
    parseItems (f + 1) cs =
      (match parseVal f cs with
       | none => none
       | some (v, rest) =>
           match skipWs rest with
           | ',' :: rest2 =>
               (match parseItems f (skipWs rest2) with
                | some (vs, rest3) => some (v :: vs, rest3)
                | none => none)
           | ']' :: rest2 => some ([v], rest2)
           | _ => none) := rfl

theorem parseMembers_succ (f : Nat) (cs : List Char) :
    parseMembers (f + 1) cs =
      (match cs with
       | '"' :: cs1 =>
           (match parseStringChars cs1 with
            | none => none
            | some (k, cs2) =>
                match skipWs cs2 with
                | ':' :: cs3 =>
                    (match parseVal f (skipWs cs3) with
                     | none => none
                     | some (v, cs4) =>
                         match skipWs cs4 with
                         | ',' :: cs5 =>
                             (match parseMembers f (skipWs cs5) with
                              | some (kvs, cs6) => some ((String.mk k, v) :: kvs, cs6)
                              | none => none)
                         | '\x7d' :: cs5 => some ([(String.mk k, v)], cs5)
                         | _ => none)
                | _ => none)
       | _ => none) := rfl

/-- A serialized item list begins with its first item's serialization. -/
theorem serItems_cons (x : Json) (xs : List Json) :
    ∃ t, serItems (x :: xs) = serJ x ++ t ∧
      (xs = [] → t = []) ∧
      (xs ≠ [] → t = ',' :: ' ' :: serItems xs) := by
  cases xs with
  | nil =>
      refine ⟨[], ?_, ?_, ?_⟩
      · simp [serItems]
      · intro h; rfl
      · intro h; exact absurd rfl h
  | cons y ys =>
      refine ⟨',' :: ' ' :: serItems (y :: ys), ?_, ?_, ?_⟩
      · simp [serItems]
      · intro h; exact absurd h (by simp)
      · intro h; rfl

theorem serMembers_cons (k : String) (v : Json) (kvs : List (String × Json)) :
    ∃ t, serMembers ((k, v) :: kvs) = '"' :: k.data ++ '"' :: ':' :: ' ' :: (serJ v ++ t) ∧
      (kvs = [] → t = []) ∧
      (kvs ≠ [] → t = ',' :: ' ' :: serMembers kvs) := by
  cases kvs with
  | nil =>
      refine ⟨[], ?_, ?_, ?_⟩
      · simp [serMembers]
      · intro h; rfl
      · intro h; exact absurd rfl h
  | cons kv kvs =>
      refine ⟨',' :: ' ' :: serMembers (kv :: kvs), ?_, ?_, ?_⟩
      · obtain ⟨k2, v2⟩ := kv; simp [serMembers]
      · intro h; exact absurd h (by simp)
      · intro h; rfl

theorem parseMembers_step (f : Nat) (kd : List Char) (hk : kd.all strCharOk = true)
    (v : Json) (hv : wfJ v = true) (R : List Char)
    (hV : parseVal f (serJ v ++ R) = some (v, R)) :
    parseMembers (f + 1) ('"' :: (kd ++ '"' :: ':' :: ' ' :: (serJ v ++ R))) =
      (match skipWs R with
       | ',' :: cs5 =>
           (match parseMembers f (skipWs cs5) with
            | some (kvs, cs6) => some ((String.mk kd, v) :: kvs, cs6)
            | none => none)
       | '\x7d' :: cs5 => some ([(String.mk kd, v)], cs5)
       | _ => none) := by
  have hsp : skipWs (' ' :: (serJ v ++ R)) = serJ v ++ R := by
    have h0 : skipWs (' ' :: (serJ v ++ R)) = skipWs (serJ v ++ R) := by
      simp [skipWs, isWsChar]
    rw [h0]
    exact skipWs_serJ v hv R
  show (match parseStringChars (kd ++ '"' :: ':' :: ' ' :: (serJ v ++ R)) with
    | none => none
    | some (k, cs2) =>
        match skipWs cs2 with
        | ':' :: cs3 =>
            (match parseVal f (skipWs cs3) with
             | none => none
             | some (v2, cs4) =>
                 match skipWs cs4 with
                 | ',' :: cs5 =>
                     (match parseMembers f (skipWs cs5) with
                      | some (kvs, cs6) => some ((String.mk k, v2) :: kvs, cs6)
                      | none => none)
                 | '\x7d' :: cs5 => some ([(String.mk k, v2)], cs5)
                 | _ => none)
        | _ => none) = _
  rw [parseStringChars_app kd hk (':' :: ' ' :: (serJ v ++ R))]
  show (match parseVal f (skipWs (' ' :: (serJ v ++ R))) with
    | none => none
    | some (v2, cs4) =>
        match skipWs cs4 with
        | ',' :: cs5 =>
            (match parseMembers f (skipWs cs5) with
             | some (kvs, cs6) => some ((String.mk kd, v2) :: kvs, cs6)
             | none => none)
        | '\x7d' :: cs5 => some ([(String.mk kd, v2)], cs5)
        | _ => none) = _
  rw [hsp, hV]

theorem rtAux : ∀ n : Nat,
    (∀ v, jsize v ≤ n → wfJ v = true →
      (∀ f, jsize v ≤ f → ∀ rest, restOkB rest = true →
        parseVal f (serJ v ++ rest) = some (v, rest)) ∧
      jsize v ≤ 2 * (serJ v).length) ∧
    (∀ xs, isize xs ≤ n → xs ≠ [] → wfItems xs = true →
      (∀ f, isize xs ≤ f → ∀ rest,
        parseItems f (serItems xs ++ ']' :: rest) = some (xs, rest)) ∧
      isize xs ≤ 2 * (serItems xs).length + 2) ∧
    (∀ kvs, msize kvs ≤ n → kvs ≠ [] → wfMembers kvs = true →
      (∀ f, msize kvs ≤ f → ∀ rest,
        parseMembers f (serMembers kvs ++ '\x7d' :: rest) = some (kvs, rest)) ∧
      msize kvs ≤ 2 * (serMembers kvs).length + 2) := by
  intro n
  induction n with
  | zero =>
      refine ⟨fun v hv _ => absurd (lt_of_lt_of_le Nat.zero_lt_one (jsize_pos v)) (by omega), ?_, ?_⟩
      · intro xs hxs _ _
        exact absurd (lt_of_lt_of_le Nat.zero_lt_one (isize_pos xs)) (by omega)
      · intro kvs hkvs _ _
        exact absurd (lt_of_lt_of_le Nat.zero_lt_one (msize_pos kvs)) (by omega)
  | succ n ih =>
      obtain ⟨ihV, ihI, ihM⟩ := ih
      refine ⟨?_, ?_, ?_⟩
      · -- values
        intro v hn hwf
        cases v with
        | null =>
            refine ⟨?_, by simp [jsize, serJ]⟩
            intro f hf rest hrest
            cases f with
            | zero => simp [jsize] at hf
            | succ f => exact parseVal_null f rest
        | bool b =>
            cases b with
            | false =>
                refine ⟨?_, by simp [jsize, serJ]⟩
                intro f hf rest hrest
                cases f with
                | zero => simp [jsize] at hf
                | succ f => exact parseVal_false f rest
            | true =>
                refine ⟨?_, by simp [jsize, serJ]⟩
                intro f hf rest hrest
                cases f with
                | zero => simp [jsize] at hf
                | succ f => exact parseVal_true f rest
        | num neg ip frac =>
            have hip : ip ≠ [] := by
              simp only [wfJ, Bool.and_eq_true] at hwf
              have h1 := hwf.1.1.1
              simp only [Bool.not_eq_true'] at h1
              simp [List.isEmpty_iff] at h1
              exact h1
            obtain ⟨d, ds, rfl⟩ : ∃ d ds, ip = d :: ds := by
              cases ip with
              | nil => exact absurd rfl hip
              | cons d ds => exact ⟨d, ds, rfl⟩
            constructor
            · intro f hf rest hrest
              cases f with
              | zero => simp [jsize] at hf
              | succ f =>
                  have h := parseNum_ser neg (d :: ds) frac hwf rest hrest
                  cases neg with
                  | true =>
                      rw [show serJ (.num true (d :: ds) frac) =
                        '-' :: ((d :: ds).map digitChar ++
                          (if frac.isEmpty then [] else '.' :: frac.map digitChar))
                        from by simp [serJ]]
                      rw [List.cons_append, parseVal_neg]
                      simp only [List.map_cons, List.cons_append, List.append_assoc] at h ⊢
                      exact h
                  | false =>
                      rw [show serJ (.num false (d :: ds) frac) =
                        digitChar d :: (ds.map digitChar ++
                          (if frac.isEmpty then [] else '.' :: frac.map digitChar))
                        from by simp [serJ]]
                      rw [List.cons_append, parseVal_digitChar]
                      simp only [List.map_cons, List.cons_append, List.append_assoc] at h ⊢
                      exact h
            · cases neg with
              | true => simp [jsize, serJ, List.length_append]; omega
              | false => simp [jsize, serJ, List.length_append]; omega
        | str s =>
            have hs : s.data.all strCharOk = true := by simpa [wfJ] using hwf
            constructor
            · intro f hf rest hrest
              cases f with
              | zero => simp [jsize] at hf
              | succ f =>
                  rw [show serJ (.str s) = '"' :: (s.data ++ ['"']) from by simp [serJ]]
                  rw [List.cons_append, parseVal_str]
                  rw [List.append_assoc, List.singleton_append]
                  rw [parseStringChars_app s.data hs rest]
            · simp [jsize, serJ]; omega
        | arr xs =>
            cases xs with
            | nil =>
                constructor
                · intro f hf rest hrest
                  cases f with
                  | zero => simp [jsize, isize] at hf
                  | succ f =>
                      rw [show serJ (.arr []) = '[' :: [']'] from by simp [serJ, serItems]]
                      rw [List.cons_append, parseVal_arr, List.singleton_append]
                      rw [skipWs_cons ']' rest (by decide)]
                      rfl
                · simp [jsize, isize, serJ, serItems]
            | cons x xs =>
                have hw : wfItems (x :: xs) = true := by simpa [wfJ] using hwf
                have hwx : wfJ x = true := by
                  simp only [wfItems, Bool.and_eq_true] at hw; exact hw.1
                have hsub : isize (x :: xs) ≤ n := by simp only [jsize] at hn; omega
                obtain ⟨hQ, hQs⟩ := ihI (x :: xs) hsub (by simp) hw
                constructor
                · intro f hf rest hrest
                  cases f with
                  | zero =>
                      have h1 := isize_pos (x :: xs)
                      simp only [jsize] at hf; omega
                  | succ f =>
                      rw [show serJ (.arr (x :: xs)) = '[' :: (serItems (x :: xs) ++ [']'])
                        from by simp [serJ]]
                      rw [List.cons_append, parseVal_arr]
                      rw [List.append_assoc, List.singleton_append]
                      obtain ⟨t, ht, h1, h2⟩ := serItems_cons x xs
                      have hskip : skipWs (serItems (x :: xs) ++ ']' :: rest) =
                          serItems (x :: xs) ++ ']' :: rest := by
                        rw [ht, List.append_assoc]
                        exact skipWs_serJ x hwx _
                      rw [hskip]
                      obtain ⟨c, t2, hc, hcm⟩ := serJ_head x hwx
                      have hcne : c ≠ ']' := by fin_cases hcm <;> decide
                      rw [ht, List.append_assoc, hc, List.cons_append]
                      split
                      · rename_i rest2 heq
                        exact absurd (List.cons.inj heq).1 hcne
                      · rw [← List.cons_append, ← hc, ← List.append_assoc, ← ht]
                        rw [hQ f (by simp only [jsize] at hf; omega) rest]
                · simp only [jsize, serJ, List.length_cons, List.length_append,
                    List.length_singleton]
                  omega
        | obj kvs =>
            cases kvs with
            | nil =>
                constructor
                · intro f hf rest hrest
                  cases f with
                  | zero => simp [jsize, msize] at hf
                  | succ f =>
                      rw [show serJ (.obj []) = '\x7b' :: ['\x7d'] from by simp [serJ, serMembers]]
                      rw [List.cons_append, parseVal_obj, List.singleton_append]
                      rw [skipWs_cons '\x7d' rest (by decide)]
                      rfl
                · simp [jsize, msize, serJ, serMembers]
            | cons kv kvs =>
                obtain ⟨k, v⟩ := kv
                have hw : wfMembers ((k, v) :: kvs) = true := by simpa [wfJ] using hwf
                have hwv : wfJ v = true := by
                  simp only [wfMembers, Bool.and_eq_true] at hw; exact hw.1.2
                have hsub : msize ((k, v) :: kvs) ≤ n := by simp only [jsize] at hn; omega
                obtain ⟨hR, hRs⟩ := ihM ((k, v) :: kvs) hsub (by simp) hw
                constructor
                · intro f hf rest hrest
                  cases f with
                  | zero =>
                      have h1 := msize_pos ((k, v) :: kvs)
                      simp only [jsize] at hf; omega
                  | succ f =>
                      rw [show serJ (.obj ((k, v) :: kvs)) =
                          '\x7b' :: (serMembers ((k, v) :: kvs) ++ ['\x7d'])
                        from by simp [serJ]]
                      rw [List.cons_append, parseVal_obj]
                      rw [List.append_assoc, List.singleton_append]
                      obtain ⟨t, ht, h1, h2⟩ := serMembers_cons k v kvs
                      have hskip : skipWs (serMembers ((k, v) :: kvs) ++ '\x7d' :: rest) =
                          serMembers ((k, v) :: kvs) ++ '\x7d' :: rest := by
                        rw [ht]
                        simp only [List.cons_append, List.append_assoc]
                        exact skipWs_cons '"' _ (by decide)
                      rw [hskip]
                      rw [ht]
                      simp only [List.cons_append, List.append_assoc]
                      split
                      · rename_i rest2 heq
                        exact absurd (List.cons.inj heq).1 (by decide)
                      · rw [show '"' :: (k.data ++ '"' :: ':' :: ' ' :: (serJ v ++ (t ++ '\x7d' :: rest))) =
                            serMembers ((k, v) :: kvs) ++ '\x7d' :: rest from by
                          rw [ht]; simp only [List.cons_append, List.append_assoc]]
                        rw [hR f (by simp only [jsize] at hf; omega) rest]
                · simp only [jsize, serJ, List.length_cons, List.length_append,
                    List.length_singleton]
                  omega
      · -- items
        intro xs hn hne hw
        cases xs with
        | nil => exact absurd rfl hne
        | cons x xs =>
            have hwx : wfJ x = true := by
              simp only [wfItems, Bool.and_eq_true] at hw; exact hw.1
            have hwxs : wfItems xs = true := by
              simp only [wfItems, Bool.and_eq_true] at hw; exact hw.2
            have hjx : jsize x ≤ n := by
              have h1 := isize_pos xs
              simp only [isize] at hn; omega
            obtain ⟨hVx, hVsz⟩ := ihV x hjx hwx
            cases xs with
            | nil =>
                constructor
                · intro f hf rest
                  cases f with
                  | zero => simp [isize] at hf
                  | succ f =>
                      rw [show serItems [x] = serJ x from by simp [serItems]]
                      rw [parseItems_succ]
                      rw [hVx f (by simp only [isize] at hf; omega) (']' :: rest) rfl]
                      rfl
                · simp only [isize, show serItems [x] = serJ x from by simp [serItems]]
                  omega
            | cons y ys =>
                have hwy : wfJ y = true := by
                  simp only [wfItems, Bool.and_eq_true] at hwxs; exact hwxs.1
                have hsub : isize (y :: ys) ≤ n := by
                  have h1 := jsize_pos x
                  simp only [isize] at hn ⊢; omega
                obtain ⟨hI, hIs⟩ := ihI (y :: ys) hsub (by simp) hwxs
                have hskip2 : ∀ r : List Char,
                    skipWs (serItems (y :: ys) ++ r) = serItems (y :: ys) ++ r := by
                  intro r
                  obtain ⟨t, ht, -, -⟩ := serItems_cons y ys
                  rw [ht, List.append_assoc]
                  exact skipWs_serJ y hwy _
                constructor
                · intro f hf rest
                  cases f with
                  | zero =>
                      have h1 := jsize_pos x
                      have h2 := isize_pos (y :: ys)
                      simp only [isize] at hf; omega
                  | succ f =>
                      have hsp : skipWs (' ' :: (serItems (y :: ys) ++ ']' :: rest)) =
                          serItems (y :: ys) ++ ']' :: rest := by
                        have h0 : skipWs (' ' :: (serItems (y :: ys) ++ ']' :: rest)) =
                            skipWs (serItems (y :: ys) ++ ']' :: rest) := by
                          simp [skipWs, isWsChar]
                        rw [h0]
                        exact hskip2 (']' :: rest)
                      rw [show serItems (x :: y :: ys) =
                          serJ x ++ ',' :: ' ' :: serItems (y :: ys) from by simp [serItems]]
                      rw [parseItems_succ, List.append_assoc]
                      rw [show (',' :: ' ' :: serItems (y :: ys)) ++ ']' :: rest =
                          ',' :: ' ' :: (serItems (y :: ys) ++ ']' :: rest) from by
                        simp [List.cons_append]]
                      rw [hVx f (by
                          have h2 := isize_pos (y :: ys)
                          simp only [isize] at hf; omega)
                        (',' :: ' ' :: (serItems (y :: ys) ++ ']' :: rest)) rfl]
                      show (match parseItems f
                          (skipWs (' ' :: (serItems (y :: ys) ++ ']' :: rest))) with
                        | some (vs, rest3) => some (x :: vs, rest3)
                        | none => none) = some (x :: y :: ys, rest)
                      rw [hsp]
                      rw [hI f (by
                          have h1 := jsize_pos x
                          simp only [isize] at hf ⊢; omega) rest]
                · obtain ⟨t, ht, -, h2⟩ := serItems_cons x (y :: ys)
                  rw [h2 (by simp)] at ht
                  simp only [isize] at hIs ⊢
                  simp only [ht, List.length_append, List.length_cons]
                  omega
      · -- members
        intro kvs hn hne hw
        cases kvs with
        | nil => exact absurd rfl hne
        | cons kv kvs =>
            obtain ⟨k, v⟩ := kv
            have hk : k.data.all strCharOk = true := by
              simp only [wfMembers, Bool.and_eq_true] at hw; exact hw.1.1
            have hwv : wfJ v = true := by
              simp only [wfMembers, Bool.and_eq_true] at hw; exact hw.1.2
            have hwkvs : wfMembers kvs = true := by
              simp only [wfMembers, Bool.and_eq_true] at hw; exact hw.2
            have hjv : jsize v ≤ n := by
              have h1 := msize_pos kvs
              simp only [msize] at hn; omega
            obtain ⟨hVv, hVsz⟩ := ihV v hjv hwv
            obtain ⟨t, ht, h1, h2⟩ := serMembers_cons k v kvs
            cases kvs with
            | nil =>
                rw [h1 rfl] at ht
                constructor
                · intro f hf rest
                  cases f with
                  | zero => simp [msize] at hf
                  | succ f =>
                      rw [ht]
                      rw [show ('"' :: k.data ++ '"' :: ':' :: ' ' :: (serJ v ++ [])) ++
                            '\x7d' :: rest =
                          '"' :: (k.data ++ '"' :: ':' :: ' ' :: (serJ v ++ '\x7d' :: rest))
                        from by simp [List.cons_append, List.append_assoc]]
                      rw [parseMembers_step f k.data hk v hwv ('\x7d' :: rest)
                        (hVv f (by simp only [msize] at hf; omega) ('\x7d' :: rest) rfl)]
                      rw [skipWs_cons '\x7d' rest (by decide)]
                      rfl
                · rw [ht]
                  simp only [msize, List.length_append, List.length_cons]
                  omega
            | cons kv2 kvs2 =>
                rw [h2 (by simp)] at ht
                have hsub : msize (kv2 :: kvs2) ≤ n := by
                  have h3 := jsize_pos v
                  simp only [msize] at hn ⊢
                  omega
                obtain ⟨hR, hRs⟩ := ihM (kv2 :: kvs2) hsub (by simp) hwkvs
                have hskipM : ∀ r : List Char,
                    skipWs (serMembers (kv2 :: kvs2) ++ r) =
                      serMembers (kv2 :: kvs2) ++ r := by
                  intro r
                  obtain ⟨k2, v2⟩ := kv2
                  obtain ⟨t2, ht2, -, -⟩ := serMembers_cons k2 v2 kvs2
                  rw [ht2]
                  simp only [List.cons_append, List.append_assoc]
                  exact skipWs_cons '"' _ (by decide)
                constructor
                · intro f hf rest
                  cases f with
                  | zero =>
                      have h3 := jsize_pos v
                      have h4 := msize_pos (kv2 :: kvs2)
                      simp only [msize] at hf; omega
                  | succ f =>
                      rw [ht]
                      rw [show ('"' :: k.data ++ '"' :: ':' :: ' ' ::
                            (serJ v ++ ',' :: ' ' :: serMembers (kv2 :: kvs2))) ++
                            '\x7d' :: rest =
                          '"' :: (k.data ++ '"' :: ':' :: ' ' :: (serJ v ++
                            ',' :: ' ' :: (serMembers (kv2 :: kvs2) ++ '\x7d' :: rest)))
                        from by simp [List.cons_append, List.append_assoc]]
                      rw [parseMembers_step f k.data hk v hwv
                        (',' :: ' ' :: (serMembers (kv2 :: kvs2) ++ '\x7d' :: rest))
                        (hVv f (by
                            have h4 := msize_pos (kv2 :: kvs2)
                            simp only [msize] at hf; omega)
                          (',' :: ' ' :: (serMembers (kv2 :: kvs2) ++ '\x7d' :: rest)) rfl)]
                      rw [skipWs_cons ',' _ (by decide)]
                      show (match parseMembers f
                          (skipWs (' ' :: (serMembers (kv2 :: kvs2) ++ '\x7d' :: rest))) with
                        | some (kvs3, cs6) => some ((String.mk k.data, v) :: kvs3, cs6)
                        | none => none) = some ((k, v) :: kv2 :: kvs2, rest)
                      rw [show skipWs (' ' :: (serMembers (kv2 :: kvs2) ++ '\x7d' :: rest)) =
                          serMembers (kv2 :: kvs2) ++ '\x7d' :: rest from by
                        rw [show skipWs (' ' :: (serMembers (kv2 :: kvs2) ++ '\x7d' :: rest)) =
                            skipWs (serMembers (kv2 :: kvs2) ++ '\x7d' :: rest) from by
                          simp [skipWs, isWsChar]]
                        exact hskipM ('\x7d' :: rest)]
                      rw [hR f (by
                          have h3 := jsize_pos v
                          simp only [msize] at hf ⊢; omega) rest]
                · rw [ht]
                  simp only [msize] at hRs ⊢
                  simp only [List.length_append, List.length_cons]
                  omega

theorem parse_serJ (v : Json) (hv : wfJ v = true) (f : Nat) (hf : jsize v ≤ f)
    (rest : List Char) (hrest : restOkB rest = true) :
    parseVal f (serJ v ++ rest) = some (v, rest) :=
  ((rtAux (jsize v)).1 v le_rfl hv).1 f hf rest hrest

theorem jsize_le_serJ (v : Json) (hv : wfJ v = true) :
    jsize v ≤ 2 * (serJ v).length :=
  ((rtAux (jsize v)).1 v le_rfl hv).2

/-- Round trip: parsing a serialized well-formed value gives the value
back.  This is `json.loads(json.dumps(x)) == x` on the modelled
fragment. -/
theorem loads_dumps (v : Json) (hv : wfJ v = true) : loads (dumps v) = some v := by
  unfold loads dumps
  rw [show (String.mk (serJ v)).data = serJ v from rfl]
  have hskip : skipWs (serJ v) = serJ v := by
    have h := skipWs_serJ v hv []
    simpa using h
  rw [hskip]
  have hfuel : jsize v ≤ 2 * (serJ v).length + 2 :=
    le_trans (jsize_le_serJ v hv) (by omega)
  have hp : parseVal (2 * (serJ v).length + 2) (serJ v ++ []) = some (v, []) :=
    parse_serJ v hv _ hfuel [] rfl
  rw [List.append_nil] at hp
  rw [hp]
  rfl

theorem mapIdxFrom_length (f : Nat → α → β) (i : Nat) (l : List α) :
    (mapIdxFrom f i l).length = l.length := by
  induction l generalizing i with
  | nil => rfl
  | cons a as ih => simp [mapIdxFrom, ih]

theorem mapIdxFrom_getElem (f : Nat → α → β) (i : Nat) (l : List α) (j : Nat) :
    (mapIdxFrom f i l)[j]? = (l[j]?).map (f (i + j)) := by
  induction l generalizing i j with
  | nil => simp [mapIdxFrom]
  | cons a as ih =>
      cases j with
      | zero => simp [mapIdxFrom]
      | succ j =>
          simp only [mapIdxFrom, List.getElem?_cons_succ, ih (i + 1) j]
          have : i + 1 + j = i + (j + 1) := by omega
          rw [this]

theorem mapIdxFrom_map (g : β → γ) (f : Nat → α → β) (i : Nat) (l : List α) :
    (mapIdxFrom f i l).map g = mapIdxFrom (fun j a => g (f j a)) i l := by
  induction l generalizing i with
  | nil => rfl
  | cons a as ih => simp [mapIdxFrom, ih]

theorem mapIdxFrom_const (f : α → β) (i : Nat) (l : List α) :
    mapIdxFrom (fun _ a => f a) i l = l.map f := by
  induction l generalizing i with
  | nil => rfl
  | cons a as ih => simp [mapIdxFrom, ih]

/-- C1, counterexample: the claim asks that the verified flag track a
configured threshold; instantiated at configured threshold 4, it fails
at the demo's final committed state, which the hardcoded UPDATE sets to
verified = 1 with verification_count = 3 regardless of any
configuration. -/
theorem c1_counterexample :
    ¬ intentThresholdInvariant 4 "intent-1" "2025-01-01T00:00:00" := by
  intro h
  have h3 := h (updateIntentVerified "intent-1"
      (demoIntent "intent-1" "2025-01-01T00:00:00"))
    (by simp [demoIntentCommits])
  simp [updateIntentVerified, demoIntent, insertIntent] at h3

/-- C1, amended: with the threshold fixed at the hardcoded constant 3,
the invariant holds at every committed state of the demo's intent row,
and the verified flag never reverts (the committed verified sequence is
monotone). -/
theorem c1_threshold3_monotone (id t0 : String) :
    intentThresholdInvariant 3 id t0 ∧
      List.Sorted (· ≤ ·) ((demoIntentCommits id t0).map (fun r => r.verified)) := by
  constructor
  · intro r hr
    simp only [demoIntentCommits, List.mem_cons, List.mem_singleton,
      List.not_mem_nil, or_false] at hr
    rcases hr with h | h | h <;> subst h <;>
      simp [demoIntent, insertIntent, updateIntentVerified]
  · have hm : (demoIntentCommits id t0).map (fun r => r.verified) =
        [false, false, true] := by
      simp [demoIntentCommits, demoIntent, insertIntent, updateIntentVerified]
    rw [hm]
    decide

/-- C1, witness for the amended theorem at a concrete intent id and
timestamp. -/
theorem c1_threshold3_monotone_witness :
    intentThresholdInvariant 3 "intent-1" "2025-01-01T00:00:00" ∧
      List.Sorted (· ≤ ·)
        ((demoIntentCommits "intent-1" "2025-01-01T00:00:00").map
          (fun r => r.verified)) :=
  c1_threshold3_monotone "intent-1" "2025-01-01T00:00:00"

theorem bool_eq_of_iff {b1 b2 : Bool} (h : b1 = true ↔ b2 = true) : b1 = b2 := by
  cases b1 <;> cases b2 <;> simp_all

theorem runVerifications_eq (t : Nat) (pids : List String) : ∀ s : EngIntent,
    (runVerifications t s pids).1.verification_proofs = s.verification_proofs ++ pids ∧
    (runVerifications t s pids).1.verification_count =
      s.verification_count + pids.length ∧
    (runVerifications t s pids).1.verified =
      (s.verified || (decide (1 ≤ pids.length) &&
        decide (t ≤ s.verification_count + pids.length))) ∧
    (runVerifications t s pids).2 =
      (if s.verification_count < t ∧ t ≤ s.verification_count + pids.length
       then 1 else 0) := by
  induction pids with
  | nil =>
      intro s
      refine ⟨by simp [runVerifications], by simp [runVerifications],
        by simp [runVerifications], ?_⟩
      simp only [runVerifications, List.length_nil]
      rw [if_neg (by omega)]
  | cons p ps ih =>
      intro s
      obtain ⟨h1, h2, h3, h4⟩ := ih
        { verification_proofs := s.verification_proofs ++ [p],
          verification_count := s.verification_count + 1,
          verified := s.verified || decide (t ≤ s.verification_count + 1) }
      refine ⟨?_, ?_, ?_, ?_⟩
      · simp only [runVerifications, record_verification]
        rw [h1]
        simp
      · simp only [runVerifications, record_verification]
        rw [h2]
        simp only [List.length_cons]
        omega
      · simp only [runVerifications, record_verification]
        rw [h3]
        simp only [List.length_cons]
        apply bool_eq_of_iff
        simp only [Bool.or_eq_true, Bool.and_eq_true, decide_eq_true_eq]
        constructor
        · rintro ((hv | hle) | ⟨hl, ht2⟩)
          · exact Or.inl hv
          · exact Or.inr ⟨by omega, by omega⟩
          · exact Or.inr ⟨by omega, by omega⟩
        · rintro (hv | ⟨hl, ht2⟩)
          · exact Or.inl (Or.inl hv)
          · rcases Nat.lt_or_ge (s.verification_count + 1) t with hc | hc
            · exact Or.inr ⟨by omega, by omega⟩
            · exact Or.inl (Or.inr (by omega))
      · simp only [runVerifications, record_verification]
        rw [h4]
        simp only [List.length_cons, decide_eq_true_eq]
        by_cases h5 : s.verification_count + 1 = t
        · rw [if_pos h5, if_neg (by omega), if_pos (by omega)]
        · rw [if_neg h5]
          split_ifs with h6 h7 <;> omega

/-- C2: for any threshold at least 1 and any sequence of N ≥ threshold
verification submissions against one fresh intent — any interleaving of
concurrent submissions is some such sequence, because the spec makes
each `record_verification` atomic — all N proofs are stored (none
lost), the verified transition fires in exactly one of the N calls, and
the intent ends verified. -/
theorem c2_concurrent_verifications (t : Nat) (pids : List String)
    (ht : 1 ≤ t) (hN : t ≤ pids.length) :
    (runVerifications t freshEngIntent pids).1.verification_proofs = pids ∧
    (runVerifications t freshEngIntent pids).1.verification_count = pids.length ∧
    (runVerifications t freshEngIntent pids).2 = 1 ∧
    (runVerifications t freshEngIntent pids).1.verified = true := by
  obtain ⟨h1, h2, h3, h4⟩ := runVerifications_eq t pids freshEngIntent
  refine ⟨?_, ?_, ?_, ?_⟩
  · rw [h1]; rfl
  · rw [h2]
    show 0 + pids.length = pids.length
    omega
  · rw [h4]
    have hc : freshEngIntent.verification_count < t ∧
        t ≤ freshEngIntent.verification_count + pids.length := by
      show 0 < t ∧ t ≤ 0 + pids.length
      omega
    rw [if_pos hc]
  · rw [h3]
    show (false || (decide (1 ≤ pids.length) &&
      decide (t ≤ 0 + pids.length))) = true
    simp only [Bool.false_or, Bool.and_eq_true, decide_eq_true_eq]
    exact ⟨by omega, by omega⟩

/-- C2, witness: three concurrent verifications at threshold 3. -/
theorem c2_concurrent_verifications_witness :
    (runVerifications 3 freshEngIntent ["p1", "p2", "p3"]).1.verification_proofs =
      ["p1", "p2", "p3"] ∧
    (runVerifications 3 freshEngIntent ["p1", "p2", "p3"]).1.verification_count = 3 ∧
    (runVerifications 3 freshEngIntent ["p1", "p2", "p3"]).2 = 1 ∧
    (runVerifications 3 freshEngIntent ["p1", "p2", "p3"]).1.verified = true :=
  c2_concurrent_verifications 3 ["p1", "p2", "p3"] (by decide) (by decide)

/-- C5: each loop iteration of the verify loop stores exactly one
Verification row referencing the intent and that iteration's agent, and
appends exactly one intent.verified event whose subject is the intent id
and whose data object has exactly the keys agent_id, verification_id,
evidence. -/
theorem c5_verification_record_and_event (intentId : String)
    (pairs : List (String × Json)) (vids now : Nat → String) :
    (verifyRows intentId pairs vids now).length = pairs.length ∧
    (verifyEvents intentId pairs vids now).length = pairs.length ∧
    ∀ i, i < pairs.length →
      (verifyRows intentId pairs vids now)[i]?.map (fun r => r.intent_id) =
          some intentId ∧
      (verifyRows intentId pairs vids now)[i]?.map (fun r => r.agent_id) =
          (pairs[i]?).map Prod.fst ∧
      (verifyRows intentId pairs vids now)[i]?.map (fun r => r.id) =
          some (vids i) ∧
      (verifyEvents intentId pairs vids now)[i]?.map (fun e => e.event_type) =
          some "intent.verified" ∧
      (verifyEvents intentId pairs vids now)[i]?.map (fun e => e.subject) =
          some intentId ∧
      (verifyEvents intentId pairs vids now)[i]?.map (fun e => jsonKeys e.data) =
          some ["agent_id", "verification_id", "evidence"] := by
  refine ⟨mapIdxFrom_length _ 0 pairs, mapIdxFrom_length _ 0 pairs, ?_⟩
  intro i hi
  have hp : pairs[i]? = some pairs[i] := List.getElem?_eq_getElem hi
  refine ⟨?_, ?_, ?_, ?_, ?_, ?_⟩ <;>
    simp [verifyRows, verifyEvents, mapIdxFrom_getElem, hp, jsonKeys]

/-- C5, witness at the demo's concrete verification inputs, index 0. -/
theorem c5_verification_record_and_event_witness :
    ((verifyRows "i1" [("a1", evidence1), ("a2", evidence2), ("a3", evidence3)]
        (fun _ => "v") (fun _ => "t")).length = 3 ∧
      (verifyEvents "i1" [("a1", evidence1), ("a2", evidence2), ("a3", evidence3)]
        (fun _ => "v") (fun _ => "t")).length = 3 ∧ True) ∧
    (verifyEvents "i1" [("a1", evidence1), ("a2", evidence2), ("a3", evidence3)]
        (fun _ => "v") (fun _ => "t"))[0]?.map (fun e => jsonKeys e.data) =
      some ["agent_id", "verification_id", "evidence"] := by
  have h := c5_verification_record_and_event "i1"
    [("a1", evidence1), ("a2", evidence2), ("a3", evidence3)]
    (fun _ => "v") (fun _ => "t")
  exact ⟨⟨h.1, h.2.1, trivial⟩, (h.2.2 0 (by decide)).2.2.2.2.2⟩

/-- C6: spawning from any list of k agent specs with k fresh distinct
ids creates exactly k agent rows whose id sequence is exactly the fresh
id sequence (hence k distinct ids, in order), each with the schema
default trust score 0.5 (the INSERT omits trust_score), and appends
exactly k agent.spawned events, one per agent, in input order. -/
theorem c6_spawn (specs : List AgentSpec) (ids : List String) (now : Nat → String)
    (hlen : ids.length = specs.length) (hnodup : ids.Nodup) :
    (spawnRows specs ids now).length = specs.length ∧
    (spawnEvents specs ids now).length = specs.length ∧
    (spawnRows specs ids now).map (fun r => r.id) = ids ∧
    ((spawnRows specs ids now).map (fun r => r.id)).Nodup ∧
    ∀ i, i < specs.length →
      (spawnRows specs ids now)[i]?.map (fun r => r.trust_score) =
          some ((1 : ℚ) / 2) ∧
      (spawnEvents specs ids now)[i]?.map (fun e => e.event_type) =
          some "agent.spawned" ∧
      (spawnEvents specs ids now)[i]?.map (fun e => e.subject) = ids[i]? ∧
      (spawnEvents specs ids now)[i]?.map (fun e => e.data) =
          (specs[i]?).map specJson := by
  have hzlen : (specs.zip ids).length = specs.length := by
    simp [List.length_zip, hlen]
  have hids : (spawnRows specs ids now).map (fun r => r.id) = ids := by
    unfold spawnRows
    rw [mapIdxFrom_map]
    rw [show (fun (j : Nat) (p : AgentSpec × String) => p.2) =
      (fun (_ : Nat) (p : AgentSpec × String) => p.2) from rfl]
    rw [mapIdxFrom_const]
    exact List.map_snd_zip specs ids (by omega)
  refine ⟨by simp [spawnRows, mapIdxFrom_length, hzlen],
    by simp [spawnEvents, mapIdxFrom_length, hzlen],
    hids, by rw [hids]; exact hnodup, ?_⟩
  intro i hi
  have hzi : (specs.zip ids)[i]? = some ((specs.zip ids)[i]) :=
    List.getElem?_eq_getElem (by omega)
  have hsi : specs[i]? = some specs[i] := List.getElem?_eq_getElem hi
  have hii : ids[i]? = some (ids[i]) := List.getElem?_eq_getElem (by omega)
  have hz2 : (specs.zip ids)[i] = (specs[i], ids[i]) := by
    rw [List.getElem_zip]
  refine ⟨?_, ?_, ?_, ?_⟩ <;>
    simp [spawnRows, spawnEvents, mapIdxFrom_getElem, hzi, hz2, hsi, hii]

/-- C6, witness: the demo's three agents with three distinct ids. -/
theorem c6_spawn_witness :
    (spawnRows demoAgents ["id1", "id2", "id3"] (fun _ => "t")).map
        (fun r => r.id) = ["id1", "id2", "id3"] ∧
    (spawnRows demoAgents ["id1", "id2", "id3"] (fun _ => "t"))[0]?.map
        (fun r => r.trust_score) = some ((1 : ℚ) / 2) := by
  have h := c6_spawn demoAgents ["id1", "id2", "id3"] (fun _ => "t")
    (by decide) (by decide)
  exact ⟨h.2.2.1, (h.2.2.2.2 0 (by decide)).1⟩

/-- C4: each stored verification row's evidence column is exactly
`json.dumps` of the submitted payload, unmodified; re-parsing it with
`json.loads` (as `query_db.py` does) yields a value equal to the
original payload. -/
theorem c4_evidence_roundtrip (intentId : String) (pairs : List (String × Json))
    (vids now : Nat → String) (hwf : ∀ p ∈ pairs, wfJ p.2 = true) :
    ∀ i, i < pairs.length →
      (verifyRows intentId pairs vids now)[i]?.map (fun r => r.evidence) =
        (pairs[i]?).map (fun p => dumps p.2) ∧
      (verifyRows intentId pairs vids now)[i]?.map (fun r => loads r.evidence) =
        (pairs[i]?).map (fun p => some p.2) := by
  intro i hi
  have hp : pairs[i]? = some pairs[i] := List.getElem?_eq_getElem hi
  have hmem : pairs[i] ∈ pairs := List.getElem_mem hi
  constructor
  · simp [verifyRows, mapIdxFrom_getElem, hp]
  · simp [verifyRows, mapIdxFrom_getElem, hp,
      loads_dumps (pairs[i]).2 (hwf _ hmem)]

/-- C4, witness: the three evidence payloads of `demo.py`, index 0. -/
theorem c4_evidence_roundtrip_witness :
    (verifyRows "i1" [("a1", evidence1), ("a2", evidence2), ("a3", evidence3)]
        (fun _ => "v") (fun _ => "t"))[0]?.map (fun r => r.evidence) =
      some (dumps evidence1) ∧
    (verifyRows "i1" [("a1", evidence1), ("a2", evidence2), ("a3", evidence3)]
        (fun _ => "v") (fun _ => "t"))[0]?.map (fun r => loads r.evidence) =
      some (some evidence1) := by
  have h := c4_evidence_roundtrip "i1"
    [("a1", evidence1), ("a2", evidence2), ("a3", evidence3)]
    (fun _ => "v") (fun _ => "t")
    (by
      intro p hp
      simp only [List.mem_cons, List.not_mem_nil, or_false] at hp
      rcases hp with h1 | h1 | h1 <;> subst h1 <;> rfl)
    0 (by decide)
  exact h

theorem map_constant (l : List α) (c : γ) :
    l.map (fun _ => c) = List.replicate l.length c := by
  induction l with
  | nil => rfl
  | cons a as ih => simp [ih, List.replicate_succ]

theorem sorted_rank_shape (k1 k2 : Nat) :
    List.Sorted (· ≤ ·)
      ((0 : Nat) :: (List.replicate k1 1 ++ List.replicate k2 2)) := by
  rw [List.sorted_cons]
  constructor
  · intro b hb
    rcases List.mem_append.mp hb with h | h
    · rw [List.eq_of_mem_replicate h]; omega
    · rw [List.eq_of_mem_replicate h]; omega
  · show List.Pairwise (· ≤ ·) (List.replicate k1 1 ++ List.replicate k2 2)
    refine List.pairwise_append.mpr ⟨?_, ?_, ?_⟩
    · exact (List.pairwise_replicate).mpr (Or.inr le_rfl)
    · exact (List.pairwise_replicate).mpr (Or.inr le_rfl)
    · intro a ha b hb
      rw [List.eq_of_mem_replicate ha, List.eq_of_mem_replicate hb]
      omega

/-- C3: a demo session only appends to the log (every write opens the
file in mode "a", so the prior content is a prefix of the final
content), and the appended events are, in order: the single
intent.declared event, then all agent.spawned events, then all
intent.verified events — equivalently, the event-rank sequence of the
session is sorted. -/
theorem c3_event_order (initLog : List String) (intentId : String)
    (aids : List String) (vids nowA nowV : Nat → String) (t0 : String) :
    (∃ tail, demoLog initLog intentId aids vids nowA nowV t0 = initLog ++ tail) ∧
    (demoSessionEvents intentId aids vids nowA nowV t0).map
        (fun e => e.event_type) =
      "intent.declared" ::
        (List.replicate (demoAgents.zip aids).length "agent.spawned" ++
          List.replicate (aids.zip demoEvidence).length "intent.verified") ∧
    List.Sorted (· ≤ ·)
      ((demoSessionEvents intentId aids vids nowA nowV t0).map eventRank) := by
  have hspawn : (spawnEvents demoAgents aids nowA).map (fun e => e.event_type) =
      List.replicate (demoAgents.zip aids).length "agent.spawned" := by
    unfold spawnEvents
    rw [mapIdxFrom_map]
    rw [show (fun (j : Nat) (p : AgentSpec × String) =>
        ({ timestamp := nowA j, event_type := "agent.spawned", subject := p.2,
           data := specJson p.1 } : Event).event_type) =
      (fun (_ : Nat) (_ : AgentSpec × String) => "agent.spawned") from rfl]
    rw [mapIdxFrom_const, map_constant]
  have hverify : (verifyEvents intentId (aids.zip demoEvidence) vids nowV).map
        (fun e => e.event_type) =
      List.replicate (aids.zip demoEvidence).length "intent.verified" := by
    unfold verifyEvents
    rw [mapIdxFrom_map]
    rw [show (fun (j : Nat) (p : String × Json) =>
        ({ timestamp := nowV j, event_type := "intent.verified",
           subject := intentId,
           data := .obj [("agent_id", .str p.1), ("verification_id", .str (vids j)),
             ("evidence", p.2)] } : Event).event_type) =
      (fun (_ : Nat) (_ : String × Json) => "intent.verified") from rfl]
    rw [mapIdxFrom_const, map_constant]
  have hspawnR : (spawnEvents demoAgents aids nowA).map eventRank =
      List.replicate (demoAgents.zip aids).length 1 := by
    unfold spawnEvents
    rw [mapIdxFrom_map]
    have hfun : (fun (j : Nat) (p : AgentSpec × String) =>
        eventRank ({ timestamp := nowA j, event_type := "agent.spawned",
                     subject := p.2, data := specJson p.1 } : Event)) =
      (fun (_ : Nat) (_ : AgentSpec × String) => 1) := by
      funext j p
      simp [eventRank]
    rw [hfun, mapIdxFrom_const, map_constant]
  have hverifyR : (verifyEvents intentId (aids.zip demoEvidence) vids nowV).map
        eventRank = List.replicate (aids.zip demoEvidence).length 2 := by
    unfold verifyEvents
    rw [mapIdxFrom_map]
    have hfun : (fun (j : Nat) (p : String × Json) =>
        eventRank ({ timestamp := nowV j, event_type := "intent.verified",
                     subject := intentId,
                     data := .obj [("agent_id", .str p.1),
                       ("verification_id", .str (vids j)),
                       ("evidence", p.2)] } : Event)) =
      (fun (_ : Nat) (_ : String × Json) => 2) := by
      funext j p
      simp [eventRank]
    rw [hfun, mapIdxFrom_const, map_constant]
  refine ⟨⟨_, rfl⟩, ?_, ?_⟩
  · simp only [demoSessionEvents, List.map_cons, List.map_append,
      hspawn, hverify]
    rfl
  · simp only [demoSessionEvents, List.map_cons, List.map_append,
      hspawnR, hverifyR]
    have hd : eventRank (declaredEvent intentId t0) = 0 := by
      simp [eventRank, declaredEvent]
    rw [hd]
    exact sorted_rank_shape _ _

theorem strCharOk_ne_nl (c : Char) (h : strCharOk c = true) : c ≠ '\n' := by
  intro he
  subst he
  simp [strCharOk] at h

theorem digitChar_ne_nl (d : Nat) : digitChar d ≠ '\n' := by
  unfold digitChar; split <;> decide

theorem nlAux : ∀ n : Nat,
    (∀ v, jsize v ≤ n → wfJ v = true → '\n' ∉ serJ v) ∧
    (∀ xs, isize xs ≤ n → wfItems xs = true → '\n' ∉ serItems xs) ∧
    (∀ kvs, msize kvs ≤ n → wfMembers kvs = true → '\n' ∉ serMembers kvs) := by
  intro n
  induction n with
  | zero =>
      refine ⟨fun v hv _ => absurd (lt_of_lt_of_le Nat.zero_lt_one (jsize_pos v))
          (by omega), ?_, ?_⟩
      · intro xs hxs _
        exact absurd (lt_of_lt_of_le Nat.zero_lt_one (isize_pos xs)) (by omega)
      · intro kvs hkvs _
        exact absurd (lt_of_lt_of_le Nat.zero_lt_one (msize_pos kvs)) (by omega)
  | succ n ih =>
      obtain ⟨ihV, ihI, ihM⟩ := ih
      refine ⟨?_, ?_, ?_⟩
      · intro v hn hwf
        cases v with
        | null => simp [serJ]
        | bool b => cases b <;> simp [serJ]
        | num neg ip frac =>
            simp only [serJ, List.mem_append]
            rintro ((h1 | h1) | h1)
            · revert h1
              cases neg <;> simp
            · obtain ⟨d, -, hd⟩ := List.mem_map.mp h1
              exact digitChar_ne_nl d hd
            · rcases frac with - | ⟨f0, fs⟩
              · simp at h1
              · simp only [List.isEmpty_cons, Bool.false_eq_true, if_false,
                  List.mem_cons] at h1
                rcases h1 with h1 | h1
                · simp at h1
                · obtain ⟨d, -, hd⟩ := List.mem_map.mp h1
                  exact digitChar_ne_nl d hd
        | str s =>
            have hs : s.data.all strCharOk = true := by simpa [wfJ] using hwf
            intro h1
            rw [show serJ (.str s) = '"' :: (s.data ++ ['"'])
              from by simp [serJ]] at h1
            rcases List.mem_cons.mp h1 with h2 | h2
            · simp at h2
            · rcases List.mem_append.mp h2 with h3 | h3
              · exact strCharOk_ne_nl '\n' (List.all_eq_true.mp hs '\n' h3) rfl
              · simp at h3
        | arr xs =>
            have hw : wfItems xs = true := by simpa [wfJ] using hwf
            have hsub : isize xs ≤ n := by simp only [jsize] at hn; omega
            intro h1
            rw [show serJ (.arr xs) = '[' :: (serItems xs ++ [']'])
              from by simp [serJ]] at h1
            rcases List.mem_cons.mp h1 with h2 | h2
            · simp at h2
            · rcases List.mem_append.mp h2 with h3 | h3
              · exact ihI xs hsub hw h3
              · simp at h3
        | obj kvs =>
            have hw : wfMembers kvs = true := by simpa [wfJ] using hwf
            have hsub : msize kvs ≤ n := by simp only [jsize] at hn; omega
            intro h1
            rw [show serJ (.obj kvs) = '\x7b' :: (serMembers kvs ++ ['\x7d'])
              from by simp [serJ]] at h1
            rcases List.mem_cons.mp h1 with h2 | h2
            · simp at h2
            · rcases List.mem_append.mp h2 with h3 | h3
              · exact ihM kvs hsub hw h3
              · simp at h3
      · intro xs hn hw
        cases xs with
        | nil => simp [serItems]
        | cons x xs =>
            have hwx : wfJ x = true := by
              simp only [wfItems, Bool.and_eq_true] at hw; exact hw.1
            have hwxs : wfItems xs = true := by
              simp only [wfItems, Bool.and_eq_true] at hw; exact hw.2
            have hjx : jsize x ≤ n := by
              have h1 := isize_pos xs
              simp only [isize] at hn; omega
            cases xs with
            | nil =>
                rw [show serItems [x] = serJ x from by simp [serItems]]
                exact ihV x hjx hwx
            | cons y ys =>
                have hsub : isize (y :: ys) ≤ n := by
                  have h1 := jsize_pos x
                  simp only [isize] at hn ⊢; omega
                intro h0
                rw [show serItems (x :: y :: ys) =
                    serJ x ++ ',' :: ' ' :: serItems (y :: ys)
                  from by simp [serItems]] at h0
                rcases List.mem_append.mp h0 with h1 | h1
                · exact ihV x hjx hwx h1
                · rcases List.mem_cons.mp h1 with h2 | h2
                  · simp at h2
                  · rcases List.mem_cons.mp h2 with h3 | h3
                    · simp at h3
                    · exact ihI (y :: ys) hsub hwxs h3
      · intro kvs hn hw
        cases kvs with
        | nil => simp [serMembers]
        | cons kv kvs =>
            obtain ⟨k, v⟩ := kv
            have hk : k.data.all strCharOk = true := by
              simp only [wfMembers, Bool.and_eq_true] at hw; exact hw.1.1
            have hwv : wfJ v = true := by
              simp only [wfMembers, Bool.and_eq_true] at hw; exact hw.1.2
            have hwkvs : wfMembers kvs = true := by
              simp only [wfMembers, Bool.and_eq_true] at hw; exact hw.2
            have hjv : jsize v ≤ n := by
              have h1 := msize_pos kvs
              simp only [msize] at hn; omega
            obtain ⟨t, ht, h1, h2⟩ := serMembers_cons k v kvs
            intro h0
            rw [ht, List.cons_append] at h0
            rcases List.mem_cons.mp h0 with hc | hc0
            · simp at hc
            rcases List.mem_append.mp hc0 with hc | hc1
            · exact strCharOk_ne_nl '\n' (List.all_eq_true.mp hk '\n' hc) rfl
            rcases List.mem_cons.mp hc1 with hc | hc1
            · simp at hc
            rcases List.mem_cons.mp hc1 with hc | hc1
            · simp at hc
            rcases List.mem_cons.mp hc1 with hc | hc
            · simp at hc
            · rcases List.mem_append.mp hc with hc2 | hc2
              · exact ihV v hjv hwv hc2
              · cases kvs with
                | nil => rw [h1 rfl] at hc2; simp at hc2
                | cons kv2 kvs2 =>
                    rw [h2 (by simp)] at hc2
                    have hsub : msize (kv2 :: kvs2) ≤ n := by
                      have h3 := jsize_pos v
                      simp only [msize] at hn ⊢; omega
                    simp only [List.mem_cons] at hc2
                    rcases hc2 with hc3 | hc3 | hc3
                    · simp at hc3
                    · simp at hc3
                    · exact ihM (kv2 :: kvs2) hsub hwkvs hc3

theorem serJ_no_newline (v : Json) (hv : wfJ v = true) : '\n' ∉ serJ v :=
  (nlAux (jsize v)).1 v le_rfl hv

theorem natDigits_ne_nil (n : Nat) : natDigits n ≠ [] := by
  rw [natDigits]
  split
  · simp
  · simp

theorem natDigits_lt (n : Nat) : ∀ d ∈ natDigits n, d < 10 := by
  induction n using Nat.strong_induction_on with
  | _ n ih =>
      rw [natDigits]
      split
      · rename_i h
        intro d hd
        simp only [List.mem_singleton] at hd
        omega
      · rename_i h
        intro d hd
        rcases List.mem_append.mp hd with h1 | h1
        · exact ih (n / 10) (Nat.div_lt_self (by omega) (by omega)) d h1
        · simp only [List.mem_singleton] at h1
          subst h1
          exact Nat.mod_lt _ (by omega)

theorem natDigits_head (n : Nat) (h : 1 ≤ n) : (natDigits n).head? ≠ some 0 := by
  induction n using Nat.strong_induction_on with
  | _ n ih =>
      rw [natDigits]
      split
      · rename_i hlt
        simp only [List.head?_cons, ne_eq, Option.some.injEq]
        omega
      · rename_i hlt
        obtain ⟨d, ds, hds⟩ : ∃ d ds, natDigits (n / 10) = d :: ds := by
          rcases hnd : natDigits (n / 10) with - | ⟨d, ds⟩
          · exact absurd hnd (natDigits_ne_nil _)
          · exact ⟨d, ds, rfl⟩
        rw [hds, List.cons_append, List.head?_cons]
        have hrec := ih (n / 10) (Nat.div_lt_self (by omega) (by omega))
          (by omega)
        rw [hds, List.head?_cons] at hrec
        exact hrec

theorem wf_natDigits (n : Nat) : wfJ (.num false (natDigits n) []) = true := by
  simp only [wfJ, Bool.and_eq_true]
  refine ⟨⟨⟨?_, ?_⟩, ?_⟩, by simp⟩
  · simp [List.isEmpty_iff, natDigits_ne_nil n]
  · rw [List.all_eq_true]
    intro d hd
    simp only [decide_eq_true_eq]
    exact natDigits_lt n d hd
  · by_cases hn : n < 10
    · have : natDigits n = [n] := by rw [natDigits]; simp [hn]
      simp [this]
    · rw [Bool.or_eq_true]
      right
      simp only [Bool.not_eq_true', beq_eq_false_iff_ne, ne_eq]
      exact natDigits_head n (by omega)

theorem wf_sendRequestJson (reqId : Nat) (method : String) (params : Option Json)
    (hm : method.data.all strCharOk = true)
    (hp : wfJ (params.getD (.obj [])) = true) :
    wfJ (sendRequestJson reqId method params) = true := by
  show wfMembers _ = true
  simp only [wfMembers, Bool.and_eq_true]
  refine ⟨⟨by decide, by decide⟩, ⟨by decide, ?_⟩, ⟨by decide, ?_⟩, ⟨by decide, hp⟩,
    trivial⟩
  · exact wf_natDigits reqId
  · exact hm

/-- C7: for every method name and params (omitted params become the
empty object), the bytes `send_request` writes are the JSON
serialization of the single object {"jsonrpc": "2.0", "id": int,
"method": method, "params": params-or-empty} followed by exactly one
newline — the newline terminates the message and occurs nowhere else —
and the TCP connection target is localhost port 3000. -/
theorem c7_send_request (reqId : Nat) (method : String) (params : Option Json)
    (hm : method.data.all strCharOk = true)
    (hp : wfJ (params.getD (.obj [])) = true) :
    sendRequestMessage reqId method params =
      dumps (.obj [("jsonrpc", .str "2.0"),
        ("id", .num false (natDigits reqId) []),
        ("method", .str method), ("params", params.getD (.obj []))]) ++ "\n" ∧
    (sendRequestMessage reqId method params).data.count '\n' = 1 ∧
    (sendRequestMessage reqId method params).data.getLast? = some '\n' ∧
    sendRequestTarget = ("localhost", 3000) := by
  refine ⟨rfl, ?_, ?_, rfl⟩
  · show ((dumps (sendRequestJson reqId method params)).data ++ ['\n']).count '\n' = 1
    rw [List.count_append]
    have h0 : (dumps (sendRequestJson reqId method params)).data.count '\n' = 0 := by
      rw [List.count_eq_zero]
      exact serJ_no_newline _ (wf_sendRequestJson reqId method params hm hp)
    rw [h0]
    rfl
  · show ((dumps (sendRequestJson reqId method params)).data ++ ['\n']).getLast? =
      some '\n'
    rw [List.getLast?_concat]

/-- C7, witness: a concrete system/info request with no params. -/
theorem c7_send_request_witness :
    (sendRequestMessage 1730000000 "system/info" none).data.count '\n' = 1 ∧
    sendRequestTarget = ("localhost", 3000) := by
  have h := c7_send_request 1730000000 "system/info" none (by decide) (by decide)
  exact ⟨h.2.1, h.2.2.2⟩

theorem widthStep_length (ws : List Nat) (row : List (Option SqlVal))
    (h : row.length = ws.length) : (widthStep ws row).length = ws.length := by
  simp [widthStep, h]

theorem foldl_widthStep_length (rows : List (List (Option SqlVal))) :
    ∀ ws : List Nat, (∀ r ∈ rows, r.length = ws.length) →
      (rows.foldl widthStep ws).length = ws.length := by
  induction rows with
  | nil => intro ws _; rfl
  | cons r rs ih =>
      intro ws h
      have hr : r.length = ws.length := h r (by simp)
      rw [List.foldl_cons]
      rw [ih (widthStep ws r) ?_]
      · exact widthStep_length ws r hr
      · intro r2 hr2
        rw [widthStep_length ws r hr]
        exact h r2 (by simp [hr2])

theorem le_foldl_widthStep (rows : List (List (Option SqlVal))) :
    ∀ ws : List Nat, (∀ r ∈ rows, r.length = ws.length) →
      ∀ i (h1 : i < ws.length) (h2 : i < (rows.foldl widthStep ws).length),
        ws.get ⟨i, h1⟩ ≤ (rows.foldl widthStep ws).get ⟨i, h2⟩ := by
  induction rows with
  | nil => intro ws _ i h1 h2; exact le_rfl
  | cons r rs ih =>
      intro ws h i h1 h2
      have hr : r.length = ws.length := h r (by simp)
      have hlen : (widthStep ws r).length = ws.length := widthStep_length ws r hr
      have hmid : i < (widthStep ws r).length := by omega
      have hstep : ws.get ⟨i, h1⟩ ≤ (widthStep ws r).get ⟨i, hmid⟩ := by
        simp only [widthStep, List.get_eq_getElem, List.getElem_zipWith]
        exact le_max_left _ _
      refine le_trans hstep ?_
      exact ih (widthStep ws r) (fun r2 hr2 => by rw [hlen]; exact h r2 (by simp [hr2]))
        i hmid h2

theorem cell_le_foldl (rows : List (List (Option SqlVal))) :
    ∀ ws : List Nat, (∀ r ∈ rows, r.length = ws.length) →
      ∀ r ∈ rows, ∀ i (hi : i < r.length)
        (hw : i < (rows.foldl widthStep ws).length),
        (cellText (r.get ⟨i, hi⟩)).length ≤ (rows.foldl widthStep ws).get ⟨i, hw⟩ := by
  induction rows with
  | nil => intro ws _ r hr; exact absurd hr (List.not_mem_nil r)
  | cons r0 rs ih =>
      intro ws h r hr i hi hw
      have hr0 : r0.length = ws.length := h r0 (by simp)
      have hlen : (widthStep ws r0).length = ws.length := widthStep_length ws r0 hr0
      have hrest : ∀ r2 ∈ rs, r2.length = (widthStep ws r0).length := by
        intro r2 hr2
        rw [hlen]
        exact h r2 (by simp [hr2])
      rcases List.mem_cons.mp hr with hr1 | hr1
      · subst hr1
        have hmid : i < (widthStep ws r).length := by
          rw [hlen]
          omega
        have hcell : (cellText (r.get ⟨i, hi⟩)).length ≤
            (widthStep ws r).get ⟨i, hmid⟩ := by
          simp only [widthStep, List.get_eq_getElem, List.getElem_zipWith]
          exact le_max_right _ _
        refine le_trans hcell ?_
        exact le_foldl_widthStep rs (widthStep ws r) hrest i hmid hw
      · exact ih (widthStep ws r0) hrest r hr1 i hi hw

theorem formatVal_of_le (w : Nat) (v : Option SqlVal)
    (h : (cellText v).length ≤ w) : formatVal w v = cellText v := by
  cases v with
  | none => rfl
  | some x =>
      cases x with
      | int i => rfl
      | real q => rfl
      | text s =>
          show (if s.startsWith "\x7b" || s.startsWith "[" then
            if w < s.length then s.take (w - 3) ++ "..." else s else s) = s
          have hlen : s.length ≤ w := h
          split_ifs with h1 h2
          · exact absurd h2 (by omega)
          · rfl
          · rfl

/-- C8: in `display_table`, each column width is the maximum of the
header length and every cell's display length in that column, so the
truncation branch for JSON-looking strings can never fire: formatting a
row cell by cell gives exactly the plain display strings, and a NULL
cell always renders as "NULL". -/
theorem c8_display_table (columns : List String)
    (rows : List (List (Option SqlVal)))
    (hlen : ∀ r ∈ rows, r.length = columns.length) :
    (∀ r ∈ rows,
      List.zipWith formatVal (tableWidths columns rows) r = r.map cellText) ∧
    (∀ w, formatVal w none = "NULL") := by
  have hws : ∀ r ∈ rows, r.length = (columns.map String.length).length := by
    intro r hr
    simp [hlen r hr]
  refine ⟨?_, fun w => rfl⟩
  intro r hr
  have hrlen : r.length = columns.length := hlen r hr
  have htw : (tableWidths columns rows).length = columns.length := by
    unfold tableWidths
    rw [foldl_widthStep_length rows (columns.map String.length) hws]
    simp
  apply List.ext_getElem
  · simp [htw, hrlen]
  · intro i hzi hmi
    have hi : i < r.length := by simp at hmi; omega
    have hwi : i < (tableWidths columns rows).length := by omega
    rw [List.getElem_zipWith, List.getElem_map]
    have hb := cell_le_foldl rows (columns.map String.length) hws r hr i hi hwi
    simp only [List.get_eq_getElem] at hb
    exact formatVal_of_le _ _ hb

/-- C8, witness: a concrete two-column table with a NULL and a
JSON-looking value. -/
theorem c8_display_table_witness :
    List.zipWith formatVal
        (tableWidths ["id", "evidence"]
          [[some (.text "a"), some (.text "\x7b\"k\": 1\x7d")],
           [none, some (.text "[1, 2]")]])
        [some (.text "a"), some (.text "\x7b\"k\": 1\x7d")] =
      [cellText (some (.text "a")), cellText (some (.text "\x7b\"k\": 1\x7d"))] := by
  have h := c8_display_table ["id", "evidence"]
    [[some (.text "a"), some (.text "\x7b\"k\": 1\x7d")],
     [none, some (.text "[1, 2]")]]
    (by intro r hr; fin_cases hr <;> rfl)
  exact (h.1 [some (.text "a"), some (.text "\x7b\"k\": 1\x7d")] (by simp)).trans
    (by rfl)

/-- C9: the dashboard's success-rate expression yields 0 when the
intent count is 0, the average-time expression yields 0 when the
verification count is 0, and the performance section's guard only
passes when both the MIN and MAX verification timestamps are present
(non-NULL). -/
theorem c9_no_division_by_zero :
    (∀ v : Nat, successRate v 0 = 0) ∧
    (∀ d : ℚ, avgTimePerAgent d 0 = 0) ∧
    (∀ mn mx : Option String, perfGuard mn mx = true → mn ≠ none ∧ mx ≠ none) := by
  refine ⟨fun v => rfl, fun d => rfl, ?_⟩
  intro mn mx h
  cases mn with
  | none => simp [perfGuard, truthyStr] at h
  | some s =>
      cases mx with
      | none => simp [perfGuard, truthyStr] at h
      | some s2 => exact ⟨by simp, by simp⟩

/-- C9, witness: the guard at two present timestamps, and the two
zero-count computations. -/
theorem c9_no_division_by_zero_witness :
    successRate 5 0 = 0 ∧ avgTimePerAgent 7 0 = 0 ∧
      some "2025-01-01" ≠ (none : Option String) ∧
      some "2025-01-02" ≠ (none : Option String) := by
  have h := c9_no_division_by_zero
  have h3 := h.2.2 (some "2025-01-01") (some "2025-01-02") (by decide)
  exact ⟨h.1 5, h.2.1 7, h3.1, h3.2⟩

/-- C10: for a trust score t with 0 ≤ t ≤ 1 the rendered bar is exactly
int(t*10) filled blocks followed by 10 - int(t*10) empty blocks, 10
characters in total. -/
theorem c10_trust_bar (t : ℚ) (h0 : 0 ≤ t) (h1 : t ≤ 1) :
    trustBar t = List.replicate (Int.toNat ⌊t * 10⌋) '█' ++
        List.replicate (10 - Int.toNat ⌊t * 10⌋) '░' ∧
      (trustBar t).length = 10 := by
  have hnn : (0 : ℚ) ≤ t * 10 := by positivity
  have hp : pyInt (t * 10) = ⌊t * 10⌋ := by
    unfold pyInt
    rw [if_neg (not_lt.mpr hnn)]
  have hfl0 : (0 : ℤ) ≤ ⌊t * 10⌋ := Int.floor_nonneg.mpr hnn
  have hfl10 : ⌊t * 10⌋ ≤ 10 := by
    have hle : t * 10 ≤ 10 := by nlinarith
    calc ⌊t * 10⌋ ≤ ⌊(10 : ℚ)⌋ := Int.floor_le_floor hle
    _ = 10 := by norm_num
  constructor
  · unfold trustBar
    rw [hp]
    congr 1
    congr 1
    omega
  · unfold trustBar
    rw [hp]
    simp only [List.length_append, List.length_replicate]
    omega

/-- C10, witness: trust score 0.5 gives a 10-character bar with 5
filled blocks. -/
theorem c10_trust_bar_witness :
    trustBar (1 / 2) = List.replicate (Int.toNat ⌊(1 / 2 : ℚ) * 10⌋) '█' ++
        List.replicate (10 - Int.toNat ⌊(1 / 2 : ℚ) * 10⌋) '░' ∧
      (trustBar (1 / 2)).length = 10 :=
  c10_trust_bar (1 / 2) (by norm_num) (by norm_num)

end Synapsed
